import Mathlib

/-!
Shallow embedding of the schema definition-processing, default-application and
validation engine of the mongozen repository (file `src/schema.ts`).

Modelling conventions:
* JS runtime values that can occur in documents, defaults and enum lists are
  modelled by the inductive `JSVal`.  Buffers, Maps and bigints are not in the
  modelled universe; the corresponding registry predicates are therefore
  constantly false on every representable value, exactly as `Buffer.isBuffer`,
  `instanceof Map` and `typeof === 'bigint'` are on the values we do model.
  NaN numbers and invalid Dates are not modelled either.
* JS objects are insertion-ordered string-keyed maps; they are modelled as
  association lists (`Obj`) together with the operations `objGet`, `objSet`
  (in-place update of an existing key, append of a new key) and `objDelete`,
  which mirror property read, assignment and `delete`.
* User-supplied custom validators (`validate` attributes) are functions that
  may throw; they are modelled as `JSVal → Except String Bool`, the `.error`
  case carrying the thrown error's message.  Default producer functions are
  modelled as `Unit → JSVal` (pure, as the engine is modelled synchronously).
* The processed schema definition (the output of `processDefinition`) is the
  inductive `SchemaNode` tree: a leaf carries a normalized `FieldSpec` (whose
  `type` is always a registry tag, which construction guarantees), an interior
  node carries a nested processed definition.  The JS code distinguishes the
  two shapes at runtime by the absence of a `type` key; the inductive tags
  model that distinction (assuming no schema field is itself named `type` or
  `default`, which would confuse the JS shape tests).
-/

namespace Mongozen

/-- Runtime values of the modelled JS universe. -/
inductive JSVal where
  | vundefined
  | vnull
  | vbool (b : Bool)
  | vnum (n : Int)
  | vstr (s : String)
  | vdate (t : Int)
  | varr (elems : List JSVal)
  | vobj (fields : List (String × JSVal))

/-- A JS object: insertion-ordered association list of properties. -/
abbrev Obj := List (String × JSVal)

def JSVal.isUndefined : JSVal → Bool
  | .vundefined => true
  | _ => false

def JSVal.isNull : JSVal → Bool
  | .vnull => true
  | _ => false

def JSVal.isArr : JSVal → Bool
  | .varr _ => true
  | _ => false

/-- Property read `o[k]`: value of the first entry with key `k`, `undefined`
when the key is absent. -/
def objGet : Obj → String → JSVal
  | [], _ => .vundefined
  | (k', v) :: rest, k => if k' = k then v else objGet rest k

/-- Whether the object has an own property named `k` (`Object.keys` would list
it, even when its value is `undefined`). -/
def hasKey : Obj → String → Bool
  | [], _ => false
  | (k', _) :: rest, k => if k' = k then true else hasKey rest k

/-- Replace the value of every entry keyed `k` (JS objects hold each key once;
assignment updates it in place, keeping its position). -/
def objReplace : Obj → String → JSVal → Obj
  | [], _, _ => []
  | (k', v') :: rest, k, v =>
      if k' = k then (k, v) :: objReplace rest k v
      else (k', v') :: objReplace rest k v

/-- Property assignment `o[k] = v`: in-place update when the key exists,
append at the end otherwise. -/
def objSet (o : Obj) (k : String) (v : JSVal) : Obj :=
  if hasKey o k then objReplace o k v else o ++ [(k, v)]

/-- `delete o[k]`. -/
def objDelete : Obj → String → Obj
  | [], _ => []
  | (k', v) :: rest, k =>
      if k' = k then objDelete rest k else (k', v) :: objDelete rest k

/-- JS objects hold each key at most once. -/
def keysNodup (o : Obj) : Prop := (o.map Prod.fst).Nodup

/-- The closed set of registry type tags (the keys of `DefaultValidations` in
`src/schema.ts`). -/
inductive TypeName where
  | objectId
  | buffer
  | mapT
  | bigInt
  | stringT
  | numberT
  | booleanT
  | dateT
  | arrayT
  | mixed
  deriving DecidableEq, Repr

/-- The registry tag's name, as it appears in schema declarations and error
messages. -/
def typeNameStr : TypeName → String
  | .objectId => "ObjectId"
  | .buffer => "Buffer"
  | .mapT => "Map"
  | .bigInt => "BigInt"
  | .stringT => "String"
  | .numberT => "Number"
  | .booleanT => "Boolean"
  | .dateT => "Date"
  | .arrayT => "Array"
  | .mixed => "Mixed"

/-- `Object.keys(DefaultValidations).includes(tag)`: resolve a string tag to a
registry type, `none` for an unknown tag. -/
def parseTypeName (s : String) : Option TypeName :=
  if s = "ObjectId" then some .objectId
  else if s = "Buffer" then some .buffer
  else if s = "Map" then some .mapT
  else if s = "BigInt" then some .bigInt
  else if s = "String" then some .stringT
  else if s = "Number" then some .numberT
  else if s = "Boolean" then some .booleanT
  else if s = "Date" then some .dateT
  else if s = "Array" then some .arrayT
  else if s = "Mixed" then some .mixed
  else none

/-- Rendering of a JS value inside a template literal or `Array.join` (used in
violation messages only).  Faithful on primitives; arrays and dates use a
placeholder rendering (message cosmetics outside the verified claims). -/
def jsValRender : JSVal → String
  | .vundefined => "undefined"
  | .vnull => "null"
  | .vbool b => if b then "true" else "false"
  | .vnum n => toString n
  | .vstr s => s
  | .vdate t => "Date(" ++ toString t ++ ")"
  | .varr _ => "[array]"
  | .vobj _ => "[object Object]"

def isHexChar (c : Char) : Bool :=
  c.isDigit || ('a' ≤ c && c ≤ 'f') || ('A' ≤ c && c ≤ 'F')

/-- The ObjectId predicate tests the string rendering against
24 hex characters. -/
def objectIdTest (val : JSVal) : Bool :=
  let s := jsValRender val
  s.length == 24 && s.toList.all isHexChar

def JSVal.isStr : JSVal → Bool
  | .vstr _ => true
  | _ => false

def JSVal.isNum : JSVal → Bool
  | .vnum _ => true
  | _ => false

def JSVal.isBool : JSVal → Bool
  | .vbool _ => true
  | _ => false

def JSVal.isDate : JSVal → Bool
  | .vdate _ => true
  | _ => false

/-- The `DefaultValidations` registry: predicate of each type tag on a runtime
value.  Buffer, Map and BigInt values are outside the modelled universe, so
their predicates hold of no modelled value, as in JS they hold of none of the
modelled value kinds. -/
def DefaultValidations (t : TypeName) (val : JSVal) : Bool :=
  match t with
  | .objectId => objectIdTest val
  | .buffer => false
  | .mapT => false
  | .bigInt => false
  | .stringT => val.isStr
  | .numberT => val.isNum
  | .booleanT => val.isBool
  | .dateT => val.isDate
  | .arrayT => val.isArr
  | .mixed => true

/-- A regex literal, as used in a `pattern` constraint: its `test` method plus
its source rendering (used in the violation message). -/
structure RegexPat where
  test : String → Bool
  src : String

/-- The `default` attribute of a field declaration: absent, a static value, or
a zero-argument producer function (`fieldDef.default !== undefined`
distinguishes absent; a static `undefined` default counts as absent). -/
inductive DefaultSpec where
  | dnone
  | dvalue (v : JSVal)
  | dfun (f : Unit → JSVal)

/-- A normalized leaf field specification, as produced by `processDefinition`:
`type` is always a registry tag (construction throws otherwise), plus the
optional attributes consulted by `applyDefaults` and `validate`. -/
structure FieldSpec where
  type : TypeName
  required : Bool := false
  default : DefaultSpec := .dnone
  validate : Option (JSVal → Except String Bool) := none
  message : Option String := none
  arrayType : Option String := none
  enum : Option (List JSVal) := none
  minLength : Option Int := none
  maxLength : Option Int := none
  pattern : Option RegexPat := none
  min : Option Int := none
  max : Option Int := none

/-- A node of the processed schema tree: a normalized field specification or a
nested processed sub-definition. -/
inductive SchemaNode where
  | leaf (fs : FieldSpec)
  | tree (fields : List (String × SchemaNode))

/-- The processed schema definition (`this.definition`). -/
abbrev SchemaDefn := List (String × SchemaNode)

/-- Evaluation of a field's declared default (`schema.ts` lines 190–203 and,
identically, 166–179 for one level of nesting): a producer function is invoked
with no arguments, and only in that branch a numeric result for a `Date` field
is promoted to a Date instance; a static default is used as-is.  `none` means
no default is declared, so no assignment happens. -/
def evalDefault (fs : FieldSpec) : Option JSVal :=
  match fs.default with
  | .dnone => none
  | .dvalue v => some v
  | .dfun f =>
      let defaultValue := f ()
      if fs.type = .dateT then
        match defaultValue with
        | .vnum n => some (.vdate n)
        | dv => some dv
      else some defaultValue

/-- The inner loop of `applyDefaults` for a nested sub-schema (`schema.ts`
lines 163–180): build a sub-document from `{}` by assigning each nested
field's declared default.  A sub-sub-tree has no `default` attribute, so it
contributes nothing — defaults descend exactly one level of nesting. -/
def applyNestedDefaults : List (String × SchemaNode) → Obj → Obj
  | [], acc => acc
  | (nestedField, node) :: rest, acc =>
      applyNestedDefaults rest
        (match node with
         | .tree _ => acc
         | .leaf nfs =>
             match evalDefault nfs with
             | some v => objSet acc nestedField v
             | none => acc)

/-- One iteration of the `applyDefaults` field loop (`schema.ts` lines
149–204): skip when the result already has a defined value; for a nested node
assign the one-level sub-document of defaults and delete it again when empty;
for a leaf assign the evaluated default, if any. -/
def applyDefaultsStep (result : Obj) (field : String) (node : SchemaNode) : Obj :=
  if (objGet result field).isUndefined then
    match node with
    | .tree sub =>
        let nested := applyNestedDefaults sub []
        let r1 := objSet result field (.vobj nested)
        if nested.isEmpty then objDelete r1 field else r1
    | .leaf fs =>
        match evalDefault fs with
        | some v => objSet result field v
        | none => result
  else result

def applyDefaultsGo : Obj → SchemaDefn → Obj
  | result, [] => result
  | result, (field, node) :: rest =>
      applyDefaultsGo (applyDefaultsStep result field node) rest

/-- `Schema.applyDefaults` (`schema.ts` lines 146–207): shallow-copy the
document, then run the field loop over the processed definition. -/
def applyDefaults (defn : SchemaDefn) (doc : Obj) : Obj :=
  applyDefaultsGo doc defn

/-- One entry of the `errors` list of a validation result. -/
structure VErr where
  field : String
  message : String
  deriving DecidableEq, Repr

/-- The result of `Schema.validate`. -/
structure ValidationResult where
  isValid : Bool
  errors : List VErr
  deriving DecidableEq, Repr

/-- Dotted-path rendering: `parentPath ? parentPath + "." + field : field`. -/
def fullPathOf (parentPath field : String) : String :=
  if parentPath = "" then field else parentPath ++ "." ++ field

/-- `typeof value === 'object'` for the modelled values (arrays and `null`
are of object type in JS; the code excludes them separately). -/
def jsTypeofIsObject : JSVal → Bool
  | .vobj _ => true
  | .vdate _ => true
  | .varr _ => true
  | .vnull => true
  | _ => false

/-- Property read `value[k]` during nested validation: a plain object yields
the entry's value; on any other value the document fields read out as
`undefined`. -/
def jsGetProp (v : JSVal) (k : String) : JSVal :=
  match v with
  | .vobj o => objGet o k
  | _ => .vundefined

/-- Whether a processed node has a truthy `required` attribute (a nested
sub-tree has none). -/
def nodeRequired : SchemaNode → Bool
  | .leaf fs => fs.required
  | .tree _ => false

/-- The message of a failed custom validator: the declared `message` when
truthy (JS `||`, so the empty string falls through), else the default text. -/
def customMessage (fs : FieldSpec) (fullPath : String) : String :=
  match fs.message with
  | some m => if m = "" then "Field '" ++ fullPath ++ "' failed custom validation" else m
  | none => "Field '" ++ fullPath ++ "' failed custom validation"

/-- Enum membership via `Array.includes`, i.e. SameValueZero: value equality
on primitives, reference equality (never satisfied between the schema's enum
list and a freshly supplied document value) on objects and arrays. -/
def jsStrictEq : JSVal → JSVal → Bool
  | .vundefined, .vundefined => true
  | .vnull, .vnull => true
  | .vbool a, .vbool b => a == b
  | .vnum a, .vnum b => a == b
  | .vstr a, .vstr b => a == b
  | _, _ => false

/-- Enum check (`schema.ts` lines 272–277): runs whenever an `enum` list is
declared, for any type. -/
def enumErrs (fs : FieldSpec) (value : JSVal) (fullPath : String) : List VErr :=
  match fs.enum with
  | some l =>
      if l.any (fun e => jsStrictEq e value) then []
      else [⟨fullPath, fullPath ++ " must be one of: " ++
              String.intercalate ", " (l.map jsValRender)⟩]
  | none => []

/-- String constraints (`schema.ts` lines 280–304), guarded by
`typeDef === 'String'`; at this point the value has passed the String
predicate, so it is a string. -/
def stringConstraintErrs (fs : FieldSpec) (value : JSVal) (fullPath : String) : List VErr :=
  match fs.type, value with
  | .stringT, .vstr s =>
      (match fs.minLength with
       | some m => if (s.length : Int) < m then
           [⟨fullPath, fullPath ++ " must be at least " ++ toString m ++ " characters long"⟩]
         else []
       | none => [])
      ++ (match fs.maxLength with
       | some m => if (s.length : Int) > m then
           [⟨fullPath, fullPath ++ " must be at most " ++ toString m ++ " characters long"⟩]
         else []
       | none => [])
      ++ (match fs.pattern with
       | some p => if p.test s then []
         else [⟨fullPath, fullPath ++ " must match the pattern " ++ p.src⟩]
       | none => [])
  | _, _ => []

/-- Number constraints (`schema.ts` lines 307–323), guarded by
`typeDef === 'Number'`; the value has passed the Number predicate. -/
def numberConstraintErrs (fs : FieldSpec) (value : JSVal) (fullPath : String) : List VErr :=
  match fs.type, value with
  | .numberT, .vnum n =>
      (match fs.min with
       | some m => if n < m then
           [⟨fullPath, fullPath ++ " must be at least " ++ toString m⟩]
         else []
       | none => [])
      ++ (match fs.max with
       | some m => if n > m then
           [⟨fullPath, fullPath ++ " must be at most " ++ toString m⟩]
         else []
       | none => [])
  | _, _ => []

/-- Custom validator (`schema.ts` lines 386–398): a falsy return emits the
configured or default message; a thrown exception is caught and its message
becomes the violation text. -/
def customValidatorErrs (fs : FieldSpec) (value : JSVal) (fullPath : String) : List VErr :=
  match fs.validate with
  | some f =>
      match f value with
      | .ok isValid => if isValid then [] else [⟨fullPath, customMessage fs fullPath⟩]
      | .error err => [⟨fullPath, err⟩]
  | none => []

/-- The missing-sub-document case of nested validation (`schema.ts` lines
224–232): one violation per required direct nested field. -/
def requiredErrsOfTree (sub : List (String × SchemaNode)) (fullPath : String) : List VErr :=
  match sub with
  | [] => []
  | (nestedField, nn) :: rest =>
      (if nodeRequired nn then
        [⟨fullPath ++ "." ++ nestedField, fullPath ++ "." ++ nestedField ++ " is required"⟩]
      else [])
      ++ requiredErrsOfTree rest fullPath

mutual

/-- The recursive `validateField` helper of `Schema.validate` (`schema.ts`
lines 218–399).  Note the array-items block of the source (lines 326–383) is
guarded by `Array.isArray(fieldDef.type)`, and a processed field's `type` is
always a registry tag string — `processDefinition` throws `Invalid type` on an
array-valued `type` — so that block is unreachable on processed definitions
and contributes no checks here. -/
def validateField (field : String) (node : SchemaNode) (value : JSVal)
    (parentPath : String) : List VErr :=
  let fullPath := fullPathOf parentPath field
  match node with
  | .tree sub =>
      if value.isUndefined || value.isNull then
        requiredErrsOfTree sub fullPath
      else if !(jsTypeofIsObject value) || value.isArr then
        [⟨fullPath, fullPath ++ " must be an object"⟩]
      else
        validateFields sub value fullPath
  | .leaf fs =>
      if fs.required && (value.isUndefined || value.isNull) then
        [⟨fullPath, fullPath ++ " is required"⟩]
      else if value.isUndefined || value.isNull then []
      else if fs.type != TypeName.mixed && !(DefaultValidations fs.type value) then
        [⟨fullPath, fullPath ++ " must be of type " ++ typeNameStr fs.type⟩]
      else
        enumErrs fs value fullPath
        ++ stringConstraintErrs fs value fullPath
        ++ numberConstraintErrs fs value fullPath
        ++ customValidatorErrs fs value fullPath

/-- Validation of each nested field of a sub-schema, in declaration order. -/
def validateFields (sub : List (String × SchemaNode)) (value : JSVal)
    (fullPath : String) : List VErr :=
  match sub with
  | [] => []
  | (nestedField, nn) :: rest =>
      validateField nestedField nn (jsGetProp value nestedField) fullPath
      ++ validateFields rest value fullPath

end

/-- The top-level field loop of `validate` (`schema.ts` lines 402–404). -/
def validateTop : SchemaDefn → Obj → List VErr
  | [], _ => []
  | (field, node) :: rest, doc =>
      validateField field node (objGet doc field) "" ++ validateTop rest doc

/-- `Schema.validate` (`schema.ts` lines 214–410): aggregate every field's
violations; `isValid` is `errors.length === 0`. -/
def validate (defn : SchemaDefn) (doc : Obj) : ValidationResult :=
  let errors := validateTop defn doc
  { isValid := errors.isEmpty, errors := errors }

/-- The `type:` attribute of a raw options object: a constructor reference
(resolved to its `.name`), a string tag, or an array value (its template
rendering is carried for the error message it provokes). -/
inductive RawTypeVal where
  | rctor (name : String)
  | rtag (name : String)
  | rarrayVal (rendered : String)

/-- The raw `required:` attribute: absent, a boolean, or some other defined
value. -/
inductive RawRequiredVal where
  | rundefined
  | rbool (b : Bool)
  | rnonbool

/-- The raw `validate:` attribute: absent/falsy, a function, or a defined
non-callable value. -/
inductive RawValidateVal where
  | rvNone
  | rvFun (f : JSVal → Except String Bool)
  | rvNonCallable

/-- A raw options object carrying a `type` key, before merging over the
defaults `{type: 'Mixed', required: false, default: undefined,
validate: undefined}`. -/
structure RawOpts where
  type : RawTypeVal
  required : RawRequiredVal := .rundefined
  default : DefaultSpec := .dnone
  validate : RawValidateVal := .rvNone
  message : Option String := none
  enum : Option (List JSVal) := none
  minLength : Option Int := none
  maxLength : Option Int := none
  pattern : Option RegexPat := none
  min : Option Int := none
  max : Option Int := none

/-- A raw field declaration, by the shapes `processDefinition` distinguishes:
`null`/`undefined`; an array literal (carrying the first element's `.name`
when the first element is a function, the shape `fieldDef[0]?.name` reads); an
object without a `type` key (a nested raw declaration); an object with a
`type` key; or any other bare value, coerced to `{type: fieldDef}` — a
constructor reference contributes its `.name`, a bare string its own text, so
both are carried as the resulting tag string. -/
inductive RawFieldDecl where
  | rnothing
  | rarrLit (firstName : Option String)
  | rnested (fields : List (String × RawFieldDecl))
  | ropts (o : RawOpts)
  | rbare (typeTag : String)

/-- Resolution and validation of a field options object (`schema.ts` lines
102–135): resolve a constructor `type` to its name, require the tag to be a
registry key (else `Invalid type`), require `validate` to be callable when
truthy, require `required` to be boolean when defined. -/
def processOpts (o : RawOpts) : Except String FieldSpec :=
  match o.type with
  | .rarrayVal rendered => .error ("Invalid type: " ++ rendered)
  | .rctor name | .rtag name =>
      match parseTypeName name with
      | none => .error ("Invalid type: " ++ name)
      | some t =>
          match o.validate with
          | .rvNonCallable => .error "Validation function must be a function"
          | rv =>
              match o.required with
              | .rnonbool => .error "Required property must be a boolean"
              | rr =>
                  .ok { type := t,
                        required := match rr with
                          | .rbool b => b
                          | _ => false,
                        default := o.default,
                        validate := match rv with
                          | .rvFun f => some f
                          | _ => none,
                        message := o.message, enum := o.enum,
                        minLength := o.minLength, maxLength := o.maxLength,
                        pattern := o.pattern, min := o.min, max := o.max }

mutual

/-- `Schema.processDefinition` (`schema.ts` lines 75–139): process each field
declaration in order; the first throw aborts construction, so no usable schema
is produced past an error. -/
def processDefinition : List (String × RawFieldDecl) → Except String SchemaDefn
  | [] => .ok []
  | (field, fd) :: rest => do
      let node ← processFieldDecl fd
      let restP ← processDefinition rest
      return (field, node) :: restP

/-- Processing of one field declaration by shape (`schema.ts` lines 79–135):
a null/absent declaration throws; an array literal yields an Array field
specification with `arrayType` from the first element's name (default
`Mixed`), with no further checks; an object without `type` recurses; anything
else is normalized as an options object. -/
def processFieldDecl : RawFieldDecl → Except String SchemaNode
  | .rnothing => .error "Definition cannot be undefined or null"
  | .rarrLit firstName =>
      .ok (.leaf { type := .arrayT, required := false, default := .dnone,
                   validate := none, arrayType := some (firstName.getD "Mixed") })
  | .rnested fields => do
      let sub ← processDefinition fields
      return .tree sub
  | .ropts o => do
      let fs ← processOpts o
      return .leaf fs
  | .rbare typeTag => do
      let fs ← processOpts { type := .rtag typeTag }
      return .leaf fs

end

/-! Lemmas about the JS object operations. -/

theorem isUndefined_iff {v : JSVal} : v.isUndefined = true ↔ v = .vundefined := by
  cases v <;> simp [JSVal.isUndefined]

theorem hasKey_iff_mem {o : Obj} {k : String} :
    hasKey o k = true ↔ k ∈ o.map Prod.fst := by
  induction o with
  | nil => simp [hasKey]
  | cons p rest ih =>
      obtain ⟨k', v'⟩ := p
      by_cases h : k' = k
      · subst h; simp [hasKey]
      · simp only [hasKey, if_neg h, ih, List.map_cons, List.mem_cons]
        constructor
        · exact fun hm => Or.inr hm
        · rintro (rfl | hm)
          · exact absurd rfl h
          · exact hm

theorem hasKey_false_iff {o : Obj} {k : String} :
    hasKey o k = false ↔ k ∉ o.map Prod.fst := by
  rw [← hasKey_iff_mem]
  cases h : hasKey o k <;> simp [h]

theorem objGet_append_right {o : Obj} {k : String} (rest : Obj)
    (h : hasKey o k = false) : objGet (o ++ rest) k = objGet rest k := by
  induction o with
  | nil => simp
  | cons p o' ih =>
      obtain ⟨k', v'⟩ := p
      by_cases hk : k' = k
      · simp [hasKey, hk] at h
      · simp only [hasKey, if_neg hk] at h
        simpa [objGet, if_neg hk] using ih h

theorem objGet_objReplace_self {o : Obj} {k : String} {v : JSVal}
    (h : hasKey o k = true) : objGet (objReplace o k v) k = v := by
  induction o with
  | nil => simp [hasKey] at h
  | cons p rest ih =>
      obtain ⟨k', v'⟩ := p
      by_cases hk : k' = k
      · simp [objReplace, objGet, hk]
      · simp only [hasKey, if_neg hk] at h
        simpa [objReplace, objGet, if_neg hk] using ih h

theorem objGet_objSet_self (o : Obj) (k : String) (v : JSVal) :
    objGet (objSet o k v) k = v := by
  unfold objSet
  by_cases h : hasKey o k = true
  · simp only [h, if_pos]
    exact objGet_objReplace_self h
  · have h' : hasKey o k = false := by
      cases hh : hasKey o k
      · rfl
      · exact absurd hh h
    simp only [h', Bool.false_eq_true, if_neg, ite_false]
    rw [objGet_append_right _ h']
    simp [objGet]

theorem objGet_objReplace_ne {o : Obj} {k k' : String} {v : JSVal}
    (h : k ≠ k') : objGet (objReplace o k v) k' = objGet o k' := by
  induction o with
  | nil => simp [objReplace]
  | cons p rest ih =>
      obtain ⟨k0, v0⟩ := p
      by_cases hk : k0 = k
      · subst hk
        simp [objReplace, objGet, if_neg h, ih]
      · simp [objReplace, objGet, if_neg hk, ih]

theorem objGet_objSet_ne {o : Obj} {k k' : String} {v : JSVal}
    (h : k ≠ k') : objGet (objSet o k v) k' = objGet o k' := by
  unfold objSet
  by_cases hh : hasKey o k
  · simp only [hh, if_pos]
    exact objGet_objReplace_ne h
  · simp only [hh, Bool.false_eq_true, ite_false]
    induction o with
    | nil => simp [objGet, if_neg h]
    | cons p rest ih =>
        obtain ⟨k0, v0⟩ := p
        by_cases hk : k0 = k'
        · simp [objGet, hk]
        · simp only [hasKey] at hh
          by_cases hkk : k0 = k
          · simp [hkk] at hh
          · simp only [if_neg hkk] at hh
            simpa [objGet, if_neg hk] using ih hh

theorem hasKey_objReplace {o : Obj} {k : String} {v : JSVal} (k' : String) :
    hasKey (objReplace o k v) k' = hasKey o k' := by
  induction o with
  | nil => simp [objReplace]
  | cons p rest ih =>
      obtain ⟨k0, v0⟩ := p
      by_cases hk : k0 = k
      · subst hk
        simp [objReplace, hasKey, ih]
      · simp [objReplace, hasKey, if_neg hk, ih]

theorem hasKey_objSet_self (o : Obj) (k : String) (v : JSVal) :
    hasKey (objSet o k v) k = true := by
  unfold objSet
  by_cases hh : hasKey o k
  · simp [hh, hasKey_objReplace]
  · simp only [hh, Bool.false_eq_true, ite_false]
    induction o with
    | nil => simp [hasKey]
    | cons p rest ih =>
        obtain ⟨k0, v0⟩ := p
        simp only [hasKey] at hh ⊢
        by_cases hk : k0 = k
        · simp [hk] at hh
        · simp only [if_neg hk] at hh ⊢
          exact ih hh

theorem hasKey_objSet_ne {o : Obj} {k k' : String} {v : JSVal}
    (h : k ≠ k') : hasKey (objSet o k v) k' = hasKey o k' := by
  unfold objSet
  by_cases hh : hasKey o k
  · simp [hh, hasKey_objReplace]
  · simp only [hh, Bool.false_eq_true, ite_false]
    induction o with
    | nil => simp [hasKey, if_neg (fun heq => h heq)]
    | cons p rest ih =>
        obtain ⟨k0, v0⟩ := p
        simp only [hasKey] at hh ⊢
        by_cases hk : k0 = k
        · simp [hk] at hh
        · simp only [if_neg hk] at hh ⊢
          by_cases hk' : k0 = k'
          · simp [hk']
          · simp only [if_neg hk']
            exact ih hh

theorem objGet_objDelete_self (o : Obj) (k : String) :
    objGet (objDelete o k) k = .vundefined := by
  induction o with
  | nil => simp [objDelete, objGet]
  | cons p rest ih =>
      obtain ⟨k0, v0⟩ := p
      by_cases hk : k0 = k
      · simp [objDelete, hk, ih]
      · simp [objDelete, objGet, if_neg hk, ih]

theorem objGet_objDelete_ne {o : Obj} {k k' : String}
    (h : k ≠ k') : objGet (objDelete o k) k' = objGet o k' := by
  induction o with
  | nil => simp [objDelete]
  | cons p rest ih =>
      obtain ⟨k0, v0⟩ := p
      by_cases hk : k0 = k
      · subst hk
        simp [objDelete, objGet, if_neg h, ih]
      · simp [objDelete, objGet, if_neg hk, ih]

theorem hasKey_objDelete_self (o : Obj) (k : String) :
    hasKey (objDelete o k) k = false := by
  induction o with
  | nil => simp [objDelete, hasKey]
  | cons p rest ih =>
      obtain ⟨k0, v0⟩ := p
      by_cases hk : k0 = k
      · simp [objDelete, hk, ih]
      · simp [objDelete, hasKey, if_neg hk, ih]

theorem hasKey_objDelete_ne {o : Obj} {k k' : String}
    (h : k ≠ k') : hasKey (objDelete o k) k' = hasKey o k' := by
  induction o with
  | nil => simp [objDelete]
  | cons p rest ih =>
      obtain ⟨k0, v0⟩ := p
      by_cases hk : k0 = k
      · subst hk
        simp [objDelete, hasKey, if_neg h, ih]
      · simp [objDelete, hasKey, if_neg hk, ih]

theorem objDelete_of_not_hasKey {o : Obj} {k : String}
    (h : hasKey o k = false) : objDelete o k = o := by
  induction o with
  | nil => simp [objDelete]
  | cons p rest ih =>
      obtain ⟨k0, v0⟩ := p
      simp only [hasKey] at h
      by_cases hk : k0 = k
      · simp [hk] at h
      · simp only [if_neg hk] at h
        simp [objDelete, if_neg hk, ih h]

theorem objDelete_objReplace (o : Obj) (k : String) (v : JSVal) :
    objDelete (objReplace o k v) k = objDelete o k := by
  induction o with
  | nil => simp [objReplace, objDelete]
  | cons p rest ih =>
      obtain ⟨k0, v0⟩ := p
      by_cases hk : k0 = k
      · simp [objReplace, objDelete, hk, ih]
      · simp [objReplace, objDelete, if_neg hk, ih]

theorem objDelete_objSet (o : Obj) (k : String) (v : JSVal) :
    objDelete (objSet o k v) k = objDelete o k := by
  unfold objSet
  by_cases hh : hasKey o k
  · simp [hh, objDelete_objReplace]
  · simp only [hh, Bool.false_eq_true, ite_false]
    induction o with
    | nil => simp [objDelete]
    | cons p rest ih =>
        obtain ⟨k0, v0⟩ := p
        simp only [hasKey] at hh
        by_cases hk : k0 = k
        · simp [hk] at hh
        · simp only [if_neg hk] at hh
          simp [objDelete, if_neg hk, ih hh]

theorem objReplace_of_not_hasKey {o : Obj} {k : String} {v : JSVal}
    (h : hasKey o k = false) : objReplace o k v = o := by
  induction o with
  | nil => simp [objReplace]
  | cons p rest ih =>
      obtain ⟨k0, v0⟩ := p
      simp only [hasKey] at h
      by_cases hk : k0 = k
      · simp [hk] at h
      · simp only [if_neg hk] at h
        simp [objReplace, if_neg hk, ih h]

theorem objSet_eq_self {o : Obj} {k : String} {v : JSVal}
    (hnd : keysNodup o) (hk : hasKey o k = true) (hg : objGet o k = v) :
    objSet o k v = o := by
  unfold objSet
  simp only [hk, if_pos]
  induction o with
  | nil => simp [hasKey] at hk
  | cons p rest ih =>
      obtain ⟨k0, v0⟩ := p
      simp only [keysNodup, List.map_cons, List.nodup_cons] at hnd
      by_cases hk0 : k0 = k
      · subst hk0
        simp only [objGet, if_pos rfl] at hg
        subst hg
        have hrest : hasKey rest k0 = false :=
          hasKey_false_iff.mpr hnd.1
        simp [objReplace, objReplace_of_not_hasKey hrest]
      · simp only [hasKey, if_neg hk0] at hk
        simp only [objGet, if_neg hk0] at hg
        simp [objReplace, if_neg hk0, ih hnd.2 hk hg]

theorem keys_objReplace (o : Obj) (k : String) (v : JSVal) :
    (objReplace o k v).map Prod.fst = o.map Prod.fst := by
  induction o with
  | nil => simp [objReplace]
  | cons p rest ih =>
      obtain ⟨k0, v0⟩ := p
      by_cases hk : k0 = k
      · simp [objReplace, hk, ih]
      · simp [objReplace, if_neg hk, ih]

theorem keysNodup_objSet {o : Obj} (k : String) (v : JSVal)
    (hnd : keysNodup o) : keysNodup (objSet o k v) := by
  unfold objSet
  by_cases hh : hasKey o k
  · rw [if_pos hh]
    simpa [keysNodup, keys_objReplace] using hnd
  · have h' : hasKey o k = false := by
      cases hhh : hasKey o k
      · rfl
      · exact absurd hhh hh
    simp only [hh, Bool.false_eq_true, ite_false]
    simp only [keysNodup, List.map_append, List.map_cons, List.map_nil]
    rw [List.nodup_append]
    refine ⟨hnd, List.nodup_singleton k, ?_⟩
    intro a ha hb
    simp only [List.mem_singleton] at hb
    subst hb
    exact hasKey_false_iff.mp h' ha

theorem keysNodup_objDelete {o : Obj} (k : String)
    (hnd : keysNodup o) : keysNodup (objDelete o k) := by
  induction o with
  | nil => simp [objDelete, keysNodup]
  | cons p rest ih =>
      obtain ⟨k0, v0⟩ := p
      simp only [keysNodup, List.map_cons, List.nodup_cons] at hnd
      by_cases hk : k0 = k
      · simp only [objDelete, if_pos hk]
        exact ih hnd.2
      · simp only [objDelete, if_neg hk, keysNodup, List.map_cons, List.nodup_cons]
        refine ⟨?_, ih hnd.2⟩
        intro hmem
        have : k0 ∈ rest.map Prod.fst := by
          have hsub : (objDelete rest k).map Prod.fst ⊆ rest.map Prod.fst := by
            intro a ha
            simp only [List.mem_map] at ha ⊢
            obtain ⟨q, hq, rfl⟩ := ha
            refine ⟨q, ?_, rfl⟩
            revert hq
            clear ih hnd hmem
            induction rest with
            | nil => simp [objDelete]
            | cons r rest' ih' =>
                obtain ⟨kr, vr⟩ := r
                by_cases hkr : kr = k
                · simp only [objDelete, if_pos hkr]
                  intro hq
                  exact List.mem_cons_of_mem _ (ih' hq)
                · simp only [objDelete, if_neg hkr, List.mem_cons]
                  rintro (rfl | hq)
                  · exact Or.inl rfl
                  · exact Or.inr (ih' hq)
          exact hsub hmem
        exact hnd.1 this

/-! Lemmas about the defaults loop. -/

theorem isUndefined_false_iff {v : JSVal} : v.isUndefined = false ↔ v ≠ .vundefined := by
  cases v <;> simp [JSVal.isUndefined]

theorem applyDefaultsStep_skip {r : Obj} {field : String} {node : SchemaNode}
    (h : (objGet r field).isUndefined = false) :
    applyDefaultsStep r field node = r := by
  simp [applyDefaultsStep, h]

theorem applyDefaultsStep_frame {r : Obj} {field field' : String} {node : SchemaNode}
    (h : field' ≠ field) :
    objGet (applyDefaultsStep r field' node) field = objGet r field ∧
    hasKey (applyDefaultsStep r field' node) field = hasKey r field := by
  unfold applyDefaultsStep
  by_cases hg : (objGet r field').isUndefined
  · simp only [hg, if_pos]
    cases node with
    | leaf fs =>
        cases hev : evalDefault fs with
        | none => simp [hev]
        | some v => simp [hev, objGet_objSet_ne h, hasKey_objSet_ne h]
    | tree sub =>
        by_cases hemp : (applyNestedDefaults sub []).isEmpty
        · simp [hemp, objGet_objDelete_ne h, objGet_objSet_ne h,
            hasKey_objDelete_ne h, hasKey_objSet_ne h]
        · simp [hemp, objGet_objSet_ne h, hasKey_objSet_ne h]
  · simp [hg]

theorem applyDefaultsStep_preserves_defined {r : Obj} {f field : String}
    {node : SchemaNode} (h : objGet r f ≠ .vundefined) :
    objGet (applyDefaultsStep r field node) f = objGet r f := by
  by_cases hf : field = f
  · subst hf
    have : (objGet r field).isUndefined = false := isUndefined_false_iff.mpr h
    rw [applyDefaultsStep_skip this]
  · exact (applyDefaultsStep_frame hf).1

theorem applyDefaultsGo_preserves_defined {l : SchemaDefn} {r : Obj} {f : String}
    (h : objGet r f ≠ .vundefined) : objGet (applyDefaultsGo r l) f = objGet r f := by
  induction l generalizing r with
  | nil => rfl
  | cons p rest ih =>
      obtain ⟨field, node⟩ := p
      have hstep := @applyDefaultsStep_preserves_defined r f field node h
      rw [applyDefaultsGo, ih (hstep ▸ h), hstep]

/-- The state a field is left in once its `applyDefaults` iteration has run:
either it now holds a defined value, or nothing will ever be assigned to it
(no declared default; a producer default that evaluates to `undefined` but has
already installed the key; a nested node with no one-level defaults whose key
is absent). -/
def stepDone (r : Obj) (field : String) (node : SchemaNode) : Prop :=
  objGet r field ≠ .vundefined ∨
  (match node with
   | .leaf fs => evalDefault fs = none ∨
       (evalDefault fs = some .vundefined ∧ hasKey r field = true)
   | .tree sub => applyNestedDefaults sub [] = [] ∧ hasKey r field = false)

theorem stepDone_step_eq {r : Obj} {field : String} {node : SchemaNode}
    (hnd : keysNodup r) (hd : stepDone r field node) :
    applyDefaultsStep r field node = r := by
  rcases hd with hdefv | hrest
  · exact applyDefaultsStep_skip (isUndefined_false_iff.mpr hdefv)
  · by_cases hg : (objGet r field).isUndefined
    · have hgu : objGet r field = .vundefined := isUndefined_iff.mp hg
      cases node with
      | leaf fs =>
          rcases hrest with hnone | ⟨hu, hk⟩
          · simp [applyDefaultsStep, hg, hnone]
          · simp only [applyDefaultsStep, hg, if_pos, hu]
            exact objSet_eq_self hnd hk hgu
      | tree sub =>
          obtain ⟨hemp, hk⟩ := hrest
          simp only [applyDefaultsStep, hg, if_pos, hemp, List.isEmpty_nil, if_true]
          rw [objDelete_objSet]
          exact objDelete_of_not_hasKey hk
    · simp [applyDefaultsStep, hg]

theorem step_establishes_stepDone (r : Obj) (field : String) (node : SchemaNode) :
    stepDone (applyDefaultsStep r field node) field node := by
  by_cases hg : (objGet r field).isUndefined
  · cases node with
    | leaf fs =>
        cases hev : evalDefault fs with
        | none => exact Or.inr (Or.inl hev)
        | some v =>
            rcases eq_or_ne v .vundefined with rfl | hv
            · refine Or.inr (Or.inr ⟨hev, ?_⟩)
              simp only [applyDefaultsStep, hg, if_pos, hev]
              exact hasKey_objSet_self r field .vundefined
            · refine Or.inl ?_
              simp only [applyDefaultsStep, hg, if_pos, hev]
              rw [objGet_objSet_self]
              exact hv
    | tree sub =>
        cases hn : applyNestedDefaults sub [] with
        | nil =>
            refine Or.inr ⟨hn, ?_⟩
            simp only [applyDefaultsStep, hg, if_pos, hn, List.isEmpty_nil, if_true]
            exact hasKey_objDelete_self _ field
        | cons p rest =>
            refine Or.inl ?_
            simp only [applyDefaultsStep, hg, if_pos, hn, List.isEmpty_cons,
              Bool.false_eq_true, ite_false]
            rw [objGet_objSet_self]
            simp
  · have hg' : (objGet r field).isUndefined = false := by simpa using hg
    rw [applyDefaultsStep_skip hg']
    exact Or.inl (isUndefined_false_iff.mp hg')

theorem stepDone_frame {r : Obj} {field field' : String} {node node' : SchemaNode}
    (h : field' ≠ field) (hd : stepDone r field node) :
    stepDone (applyDefaultsStep r field' node') field node := by
  obtain ⟨hget, hkey⟩ := @applyDefaultsStep_frame r field field' node' h
  rcases hd with hdefv | hrest
  · exact Or.inl (hget ▸ hdefv)
  · cases node with
    | leaf fs =>
        rcases hrest with hnone | ⟨hu, hk⟩
        · exact Or.inr (Or.inl hnone)
        · exact Or.inr (Or.inr ⟨hu, hkey ▸ hk⟩)
    | tree sub =>
        obtain ⟨hemp, hk⟩ := hrest
        exact Or.inr ⟨hemp, hkey ▸ hk⟩

theorem keysNodup_step {r : Obj} (field : String) (node : SchemaNode)
    (hnd : keysNodup r) : keysNodup (applyDefaultsStep r field node) := by
  unfold applyDefaultsStep
  by_cases hg : (objGet r field).isUndefined
  · simp only [hg, if_pos]
    cases node with
    | leaf fs =>
        cases hev : evalDefault fs with
        | none => simpa [hev] using hnd
        | some v => simpa [hev] using keysNodup_objSet field v hnd
    | tree sub =>
        by_cases hemp : (applyNestedDefaults sub []).isEmpty
        · simpa [hemp] using keysNodup_objDelete field (keysNodup_objSet field _ hnd)
        · simpa [hemp] using keysNodup_objSet (o := r) field (.vobj (applyNestedDefaults sub [])) hnd
  · simpa [hg] using hnd

theorem keysNodup_go {l : SchemaDefn} {r : Obj}
    (hnd : keysNodup r) : keysNodup (applyDefaultsGo r l) := by
  induction l generalizing r with
  | nil => exact hnd
  | cons p rest ih =>
      obtain ⟨field, node⟩ := p
      exact ih (keysNodup_step field node hnd)

theorem stepDone_go {l : SchemaDefn} {r : Obj} {field : String} {node : SchemaNode}
    (h : field ∉ l.map Prod.fst) (hd : stepDone r field node) :
    stepDone (applyDefaultsGo r l) field node := by
  induction l generalizing r with
  | nil => exact hd
  | cons p rest ih =>
      obtain ⟨field', node'⟩ := p
      simp only [List.map_cons, List.mem_cons, not_or] at h
      exact ih h.2 (stepDone_frame (fun heq => h.1 heq.symm) hd)

theorem go_establishes_stepDone {l : SchemaDefn} {r : Obj}
    (hnd : (l.map Prod.fst).Nodup) :
    ∀ p ∈ l, stepDone (applyDefaultsGo r l) p.1 p.2 := by
  induction l generalizing r with
  | nil => intro p hp; simp at hp
  | cons q rest ih =>
      obtain ⟨field, node⟩ := q
      simp only [List.map_cons, List.nodup_cons] at hnd
      intro p hp
      rcases List.mem_cons.mp hp with heq | hp'
      · subst heq
        rw [applyDefaultsGo]
        exact stepDone_go hnd.1 (step_establishes_stepDone r field node)
      · rw [applyDefaultsGo]
        exact ih hnd.2 p hp'

theorem go_of_all_done {l : SchemaDefn} {r : Obj}
    (hnd : keysNodup r) (h : ∀ p ∈ l, stepDone r p.1 p.2) :
    applyDefaultsGo r l = r := by
  induction l with
  | nil => rfl
  | cons q rest ih =>
      obtain ⟨field, node⟩ := q
      have hq := h (field, node) (List.mem_cons_self _ _)
      rw [applyDefaultsGo, stepDone_step_eq hnd hq]
      exact ih (fun p hp => h p (List.mem_cons_of_mem _ hp))

theorem objGet_eq_vundefined_of_not_hasKey {o : Obj} {k : String}
    (h : hasKey o k = false) : objGet o k = .vundefined := by
  induction o with
  | nil => rfl
  | cons p rest ih =>
      obtain ⟨k0, v0⟩ := p
      simp only [hasKey] at h
      by_cases hk : k0 = k
      · simp [hk] at h
      · simp only [if_neg hk] at h
        simp [objGet, if_neg hk, ih h]

theorem applyDefaultsGo_frame {l : SchemaDefn} {r : Obj} {k : String}
    (h : k ∉ l.map Prod.fst) : objGet (applyDefaultsGo r l) k = objGet r k := by
  induction l generalizing r with
  | nil => rfl
  | cons p rest ih =>
      obtain ⟨field, node⟩ := p
      simp only [List.map_cons, List.mem_cons, not_or] at h
      rw [applyDefaultsGo, ih h.2]
      exact (applyDefaultsStep_frame (fun heq => h.1 heq.symm)).1

/-! Lemmas about the validation loop. -/

theorem validateTop_append (l1 l2 : SchemaDefn) (doc : Obj) :
    validateTop (l1 ++ l2) doc = validateTop l1 doc ++ validateTop l2 doc := by
  induction l1 with
  | nil => simp [validateTop]
  | cons p rest ih =>
      obtain ⟨field, node⟩ := p
      simp [validateTop, ih]

theorem validateTop_congr {defn : SchemaDefn} {d1 d2 : Obj}
    (h : ∀ f ∈ defn.map Prod.fst, objGet d1 f = objGet d2 f) :
    validateTop defn d1 = validateTop defn d2 := by
  induction defn with
  | nil => rfl
  | cons p rest ih =>
      obtain ⟨field, node⟩ := p
      have hhead : objGet d1 field = objGet d2 field :=
        h field (by simp)
      have htail : ∀ f ∈ rest.map Prod.fst, objGet d1 f = objGet d2 f :=
        fun f hf => h f (by simp [hf])
      simp only [validateTop, hhead, ih htail]

/-- A leaf field whose value is defined, non-null and passes (or skips, for
`Mixed`) the type check runs the full chain of remaining checks. -/
theorem validateField_leaf_checks {field : String} {fs : FieldSpec} {value : JSVal}
    {parentPath : String}
    (hu : value.isUndefined = false) (hn : value.isNull = false)
    (htype : fs.type = TypeName.mixed ∨ DefaultValidations fs.type value = true) :
    validateField field (.leaf fs) value parentPath
      = enumErrs fs value (fullPathOf parentPath field)
        ++ stringConstraintErrs fs value (fullPathOf parentPath field)
        ++ numberConstraintErrs fs value (fullPathOf parentPath field)
        ++ customValidatorErrs fs value (fullPathOf parentPath field) := by
  have hguard : (fs.type != TypeName.mixed && !(DefaultValidations fs.type value)) = false := by
    rcases htype with hm | hp
    · simp [hm]
    · simp [hp]
  simp [validateField, hu, hn, hguard]

/-- C2: `applyDefaults` is idempotent: for every schema and every document,
applying defaults twice yields the same result as applying once, because every
field the first application gives a value to is skipped as already defined by
the second (schema definitions and JS documents hold each key once). -/
theorem applyDefaults_idempotent (defn : SchemaDefn) (doc : Obj)
    (hdefn : (defn.map Prod.fst).Nodup) (hdoc : keysNodup doc) :
    applyDefaults defn (applyDefaults defn doc) = applyDefaults defn doc := by
  unfold applyDefaults
  exact go_of_all_done (keysNodup_go hdoc) (go_establishes_stepDone hdefn)

theorem applyDefaults_idempotent_witness :
    ((([("age", SchemaNode.leaf { type := .numberT, default := .dvalue (.vnum 25) }), ("favorites", SchemaNode.tree [("movie", .leaf { type := .stringT, default := .dvalue (.vstr "LOTR") })])] : SchemaDefn).map Prod.fst).Nodup ∧
     keysNodup [("name", JSVal.vstr "John")]) ∧
    applyDefaults [("age", .leaf { type := .numberT, default := .dvalue (.vnum 25) }), ("favorites", .tree [("movie", .leaf { type := .stringT, default := .dvalue (.vstr "LOTR") })])]
        (applyDefaults [("age", .leaf { type := .numberT, default := .dvalue (.vnum 25) }), ("favorites", .tree [("movie", .leaf { type := .stringT, default := .dvalue (.vstr "LOTR") })])] [("name", .vstr "John")])
      = applyDefaults [("age", .leaf { type := .numberT, default := .dvalue (.vnum 25) }), ("favorites", .tree [("movie", .leaf { type := .stringT, default := .dvalue (.vstr "LOTR") })])] [("name", .vstr "John")] :=
  ⟨⟨by simp, by simp [keysNodup]⟩,
   applyDefaults_idempotent _ _ (by simp) (by simp [keysNodup])⟩

/-- C3: `applyDefaults` never overwrites an existing value: for every schema,
document and field with a defined value (explicit `null` included), the output
holds the original value, regardless of any declared default for the field. -/
theorem applyDefaults_never_overwrites (defn : SchemaDefn) (doc : Obj) (f : String)
    (h : objGet doc f ≠ .vundefined) :
    objGet (applyDefaults defn doc) f = objGet doc f :=
  applyDefaultsGo_preserves_defined h

theorem applyDefaults_never_overwrites_witness :
    objGet [("age", JSVal.vnull)] "age" ≠ JSVal.vundefined ∧
    objGet (applyDefaults [("age", .leaf { type := .numberT, default := .dvalue (.vnum 25) })] [("age", .vnull)]) "age"
      = objGet [("age", JSVal.vnull)] "age" :=
  ⟨by simp [objGet],
   applyDefaults_never_overwrites _ _ _ (by simp [objGet])⟩

/-- C4 counterexample: with a depth-two nested schema
`{a: {b: {c: {type: String, default: "x"}}}}`, `applyDefaults({})` yields `{}`
— the declared default at depth two is not populated, because the defaults
loop reads only the direct nested fields' `default` attribute and never
recurses further, contradicting "recursively ... to arbitrary depth". -/
theorem applyDefaults_depth_two_counterexample :
    applyDefaults [("a", .tree [("b", .tree [("c", .leaf { type := .stringT, default := .dvalue (.vstr "x") })])])] [] = [] := rfl

/-- C4 amended: default application descends exactly one level of nesting: a
sub-sub-tree inside a nested node contributes nothing; for a depth-one nested
schema the declared defaults are populated (e.g. the favorites/movie example),
and when the nested computation yields no defaults the key is omitted entirely
from the output. -/
theorem applyDefaults_one_level_nested (field g : String)
    (sub sub2 rest : List (String × SchemaNode)) (doc : Obj) (acc : Obj) :
    applyNestedDefaults ((g, .tree sub2) :: rest) acc = applyNestedDefaults rest acc ∧
    (hasKey doc field = false → applyNestedDefaults sub [] = [] →
      applyDefaults [(field, .tree sub)] doc = doc) ∧
    applyDefaults [("favorites", .tree [("movie", .leaf { type := .stringT, default := .dvalue (.vstr "LOTR") })])] []
      = [("favorites", .vobj [("movie", .vstr "LOTR")])] := by
  refine ⟨rfl, ?_, rfl⟩
  intro hk hemp
  have hg : objGet doc field = .vundefined := objGet_eq_vundefined_of_not_hasKey hk
  show applyDefaultsGo doc [(field, .tree sub)] = doc
  rw [applyDefaultsGo, applyDefaultsGo]
  simp only [applyDefaultsStep, hg, JSVal.isUndefined, if_pos, hemp, List.isEmpty_nil, if_true]
  rw [objDelete_objSet]
  exact objDelete_of_not_hasKey hk

theorem applyDefaults_one_level_nested_witness :
    hasKey [("name", JSVal.vstr "John")] "preferences" = false ∧
    applyNestedDefaults [("theme", SchemaNode.leaf { type := .stringT })] [] = [] ∧
    applyDefaults [("preferences", .tree [("theme", .leaf { type := .stringT })])] [("name", .vstr "John")]
      = [("name", .vstr "John")] :=
  ⟨rfl, rfl,
   (applyDefaults_one_level_nested "preferences" "g" [("theme", .leaf { type := .stringT })] [] [] [("name", .vstr "John")] []).2.1 rfl rfl⟩

/-- C8 counterexample: a `Date` field with the static integer default `5`
receives the raw number `5`, not a Date instance — the timestamp-to-Date
promotion happens only in the producer-function branch of the defaults
loop. -/
theorem static_date_default_counterexample :
    applyDefaults [("when", .leaf { type := .dateT, default := .dvalue (.vnum 5) })] [] = [("when", .vnum 5)] ∧
    (JSVal.vnum 5).isDate = false :=
  ⟨rfl, rfl⟩

/-- C8 amended: for a `Date` field with a zero-argument producer default
returning an integer timestamp, `applyDefaults` stores a Date instance
constructed from that timestamp for the missing field; a static integer
default, by contrast, is stored as the raw number. -/
theorem date_default_promotion_function_only (field : String) (doc : Obj)
    (f : Unit → JSVal) (n : Int)
    (hf : f () = .vnum n) (habs : objGet doc field = .vundefined) :
    objGet (applyDefaults [(field, .leaf { type := .dateT, default := .dfun f })] doc) field = .vdate n ∧
    objGet (applyDefaults [(field, .leaf { type := .dateT, default := .dvalue (.vnum n) })] doc) field = .vnum n := by
  constructor
  · show objGet (applyDefaultsGo doc [(field, .leaf { type := .dateT, default := .dfun f })]) field = .vdate n
    rw [applyDefaultsGo, applyDefaultsGo]
    simp only [applyDefaultsStep, habs, JSVal.isUndefined, if_pos, evalDefault, hf]
    exact objGet_objSet_self doc field (.vdate n)
  · show objGet (applyDefaultsGo doc [(field, .leaf { type := .dateT, default := .dvalue (.vnum n) })]) field = .vnum n
    rw [applyDefaultsGo, applyDefaultsGo]
    simp only [applyDefaultsStep, habs, JSVal.isUndefined, if_pos, evalDefault]
    exact objGet_objSet_self doc field (.vnum n)

theorem date_default_promotion_function_only_witness :
    (fun _ => JSVal.vnum 99) () = JSVal.vnum 99 ∧
    objGet ([] : Obj) "createdAt" = JSVal.vundefined ∧
    objGet (applyDefaults [("createdAt", .leaf { type := .dateT, default := .dfun (fun _ => .vnum 99) })] []) "createdAt" = .vdate 99 ∧
    objGet (applyDefaults [("createdAt", .leaf { type := .dateT, default := .dvalue (.vnum 99) })] []) "createdAt" = .vnum 99 :=
  ⟨rfl, rfl,
   (date_default_promotion_function_only "createdAt" [] (fun _ => .vnum 99) 99 rfl rfl).1,
   (date_default_promotion_function_only "createdAt" [] (fun _ => .vnum 99) 99 rfl rfl).2⟩

/-- C9: for a nested Schema Node, any defined value in the input — an empty
object or a partially filled sub-document included — is returned untouched
with no defaults applied beneath it; nested defaults are produced only when
the field is entirely absent from the input. -/
theorem nested_present_value_untouched (field : String)
    (sub : List (String × SchemaNode)) (doc : Obj) (o : List (String × JSVal)) :
    (objGet doc field = .vobj o → applyDefaults [(field, .tree sub)] doc = doc) ∧
    (objGet doc field = .vundefined → applyNestedDefaults sub [] ≠ [] →
      objGet (applyDefaults [(field, .tree sub)] doc) field = .vobj (applyNestedDefaults sub [])) := by
  constructor
  · intro hdefv
    show applyDefaultsGo doc [(field, .tree sub)] = doc
    rw [applyDefaultsGo, applyDefaultsGo]
    exact applyDefaultsStep_skip (by simp [hdefv, JSVal.isUndefined])
  · intro habs hne
    show objGet (applyDefaultsGo doc [(field, .tree sub)]) field = .vobj (applyNestedDefaults sub [])
    rw [applyDefaultsGo, applyDefaultsGo]
    have hemp : (applyNestedDefaults sub []).isEmpty = false := by
      cases h : applyNestedDefaults sub [] with
      | nil => exact absurd h hne
      | cons p rest => simp
    simp only [applyDefaultsStep, habs, JSVal.isUndefined, if_pos, hemp,
      Bool.false_eq_true, ite_false]
    exact objGet_objSet_self doc field _

theorem nested_present_value_untouched_witness :
    objGet [("favorites", JSVal.vobj [])] "favorites" = JSVal.vobj [] ∧
    applyDefaults [("favorites", .tree [("movie", .leaf { type := .stringT, default := .dvalue (.vstr "LOTR") })])] [("favorites", .vobj [])]
      = [("favorites", .vobj [])] ∧
    objGet ([] : Obj) "favorites" = JSVal.vundefined ∧
    objGet (applyDefaults [("favorites", .tree [("movie", .leaf { type := .stringT, default := .dvalue (.vstr "LOTR") })])] []) "favorites"
      = .vobj (applyNestedDefaults [("movie", .leaf { type := .stringT, default := .dvalue (.vstr "LOTR") })] []) :=
  ⟨rfl,
   (nested_present_value_untouched "favorites" [("movie", .leaf { type := .stringT, default := .dvalue (.vstr "LOTR") })] [("favorites", .vobj [])] []).1 rfl,
   rfl,
   (nested_present_value_untouched "favorites" [("movie", .leaf { type := .stringT, default := .dvalue (.vstr "LOTR") })] [] []).2 rfl (by simp [applyNestedDefaults, evalDefault, objSet, hasKey])⟩

/-- C10: keys absent from the schema pass through `applyDefaults` with their
value unchanged, and `validate` is independent of them — documents agreeing on
all schema-declared fields validate identically. -/
theorem undeclared_fields_passthrough (defn : SchemaDefn) (d1 d2 : Obj) (k : String)
    (hk : k ∉ defn.map Prod.fst)
    (hagree : ∀ f ∈ defn.map Prod.fst, objGet d1 f = objGet d2 f) :
    objGet (applyDefaults defn d1) k = objGet d1 k ∧
    validate defn d1 = validate defn d2 := by
  constructor
  · exact applyDefaultsGo_frame hk
  · have h := validateTop_congr hagree
    simp only [validate, h]

theorem undeclared_fields_passthrough_witness :
    ("x" ∉ ([("age", SchemaNode.leaf { type := .numberT })] : SchemaDefn).map Prod.fst) ∧
    objGet (applyDefaults [("age", .leaf { type := .numberT })] [("age", .vnum 1), ("x", .vstr "extra")]) "x"
      = objGet [("age", JSVal.vnum 1), ("x", JSVal.vstr "extra")] "x" ∧
    validate [("age", .leaf { type := .numberT })] [("age", .vnum 1), ("x", .vstr "extra")]
      = validate [("age", .leaf { type := .numberT })] [("age", .vnum 1)] := by
  have h := undeclared_fields_passthrough [("age", .leaf { type := .numberT })]
    [("age", .vnum 1), ("x", .vstr "extra")] [("age", .vnum 1)] "x"
    (by simp) ?_
  · exact ⟨by simp, h.1, h.2⟩
  · intro f hf
    simp only [List.map_cons, List.map_nil, List.mem_singleton] at hf
    subst hf
    rfl

/-- C1: `validate` never throws — it always returns an `{isValid, errors}`
result with `isValid` tied to the emptiness of `errors` — and when a
user-supplied custom validator throws on a defined, non-null field value, the
exception is caught and converted into a violation carrying the thrown
message, while the checks of every other field still run and aggregate. -/
theorem validate_catches_thrown_validator (pre post : SchemaDefn) (field : String)
    (fs : FieldSpec) (doc : Obj) (f : JSVal → Except String Bool) (msg : String)
    (hval : fs.validate = some f)
    (hthrow : f (objGet doc field) = .error msg)
    (hu : (objGet doc field).isUndefined = false)
    (hn : (objGet doc field).isNull = false)
    (htype : fs.type = TypeName.mixed ∨ DefaultValidations fs.type (objGet doc field) = true) :
    ((validate (pre ++ [(field, .leaf fs)] ++ post) doc).isValid = true
      ↔ (validate (pre ++ [(field, .leaf fs)] ++ post) doc).errors = []) ∧
    VErr.mk field msg ∈ (validate (pre ++ [(field, .leaf fs)] ++ post) doc).errors ∧
    (validate (pre ++ [(field, .leaf fs)] ++ post) doc).errors
      = (validate pre doc).errors
        ++ validateField field (.leaf fs) (objGet doc field) ""
        ++ (validate post doc).errors := by
  have hsplit : (validate (pre ++ [(field, .leaf fs)] ++ post) doc).errors
      = (validate pre doc).errors
        ++ validateField field (.leaf fs) (objGet doc field) ""
        ++ (validate post doc).errors := by
    show validateTop (pre ++ [(field, .leaf fs)] ++ post) doc
      = validateTop pre doc ++ validateField field (.leaf fs) (objGet doc field) "" ++ validateTop post doc
    rw [validateTop_append, validateTop_append]
    simp [validateTop]
  refine ⟨?_, ?_, hsplit⟩
  · show (validateTop (pre ++ [(field, .leaf fs)] ++ post) doc).isEmpty = true
      ↔ validateTop (pre ++ [(field, .leaf fs)] ++ post) doc = []
    exact List.isEmpty_iff
  · rw [hsplit]
    have hmem : VErr.mk field msg ∈ validateField field (.leaf fs) (objGet doc field) "" := by
      rw [validateField_leaf_checks hu hn htype]
      have : VErr.mk field msg
          ∈ customValidatorErrs fs (objGet doc field) (fullPathOf "" field) := by
        simp [customValidatorErrs, hval, hthrow, fullPathOf]
      simp only [List.mem_append]
      exact Or.inr this
    simp only [List.mem_append]
    exact Or.inl (Or.inr hmem)

theorem validate_catches_thrown_validator_witness :
    ({ type := .mixed, validate := some (fun _ => .error "boom") } : FieldSpec).validate
        = some (fun _ => Except.error "boom") ∧
    ((validate ([("a", .leaf { type := .numberT })] ++ [("b", .leaf { type := .mixed, validate := some (fun _ => .error "boom") })] ++ [("z", .leaf { type := .numberT, required := true })]) [("b", .vbool true)]).isValid = true
      ↔ (validate ([("a", .leaf { type := .numberT })] ++ [("b", .leaf { type := .mixed, validate := some (fun _ => .error "boom") })] ++ [("z", .leaf { type := .numberT, required := true })]) [("b", .vbool true)]).errors = []) ∧
    VErr.mk "b" "boom" ∈ (validate ([("a", .leaf { type := .numberT })] ++ [("b", .leaf { type := .mixed, validate := some (fun _ => .error "boom") })] ++ [("z", .leaf { type := .numberT, required := true })]) [("b", .vbool true)]).errors ∧
    (validate ([("a", .leaf { type := .numberT })] ++ [("b", .leaf { type := .mixed, validate := some (fun _ => .error "boom") })] ++ [("z", .leaf { type := .numberT, required := true })]) [("b", .vbool true)]).errors
      = (validate [("a", .leaf { type := .numberT })] [("b", .vbool true)]).errors
        ++ validateField "b" (.leaf { type := .mixed, validate := some (fun _ => .error "boom") }) (objGet [("b", .vbool true)] "b") ""
        ++ (validate [("z", .leaf { type := .numberT, required := true })] [("b", .vbool true)]).errors := by
  have h := validate_catches_thrown_validator
    [("a", .leaf { type := .numberT })] [("z", .leaf { type := .numberT, required := true })]
    "b" { type := .mixed, validate := some (fun _ => .error "boom") }
    [("b", .vbool true)] (fun _ => .error "boom") "boom"
    rfl rfl rfl rfl (Or.inl rfl)
  exact ⟨rfl, h.1, h.2.1, h.2.2⟩

/-- C5: partial short-circuit policy: a defined, non-null value failing the
registry predicate of its non-Mixed type yields exactly the single violation
"<path> must be of type <typeName>" for that field — enum, constraint and
custom-validator checks do not run for it — while across fields validation of
a concatenated definition is the concatenation of each part's violations, so a
failing field never suppresses the checks of its siblings. -/
theorem validate_type_failure_short_circuit (field : String) (fs : FieldSpec)
    (value : JSVal) (parentPath : String) (l1 l2 : SchemaDefn) (doc : Obj)
    (hu : value.isUndefined = false) (hn : value.isNull = false)
    (hfail : (fs.type != TypeName.mixed && !(DefaultValidations fs.type value)) = true) :
    validateField field (.leaf fs) value parentPath
      = [⟨fullPathOf parentPath field, fullPathOf parentPath field ++ " must be of type " ++ typeNameStr fs.type⟩] ∧
    (validate (l1 ++ l2) doc).errors = (validate l1 doc).errors ++ (validate l2 doc).errors := by
  constructor
  · simp [validateField, hu, hn, hfail]
  · exact validateTop_append l1 l2 doc

theorem validate_type_failure_short_circuit_witness :
    (JSVal.vstr "30").isUndefined = false ∧
    (({ type := .numberT } : FieldSpec).type != TypeName.mixed
        && !(DefaultValidations ({ type := .numberT } : FieldSpec).type (.vstr "30"))) = true ∧
    validateField "age" (.leaf { type := .numberT }) (.vstr "30") ""
      = [⟨"age", "age must be of type Number"⟩] ∧
    (validate ([("age", .leaf { type := .numberT })] ++ [("name", .leaf { type := .stringT, required := true })]) []).errors
      = (validate [("age", .leaf { type := .numberT })] []).errors
        ++ (validate [("name", .leaf { type := .stringT, required := true })] []).errors := by
  have h := validate_type_failure_short_circuit "age" { type := .numberT }
    (.vstr "30") "" [("age", .leaf { type := .numberT })]
    [("name", .leaf { type := .stringT, required := true })] [] rfl rfl rfl
  refine ⟨rfl, rfl, ?_, h.2⟩
  have h1 := h.1
  simpa [fullPathOf, typeNameStr] using h1

/-- C6 counterexample: the `[String]` shorthand normalizes to an `Array`
field specification carrying `arrayType := "String"`, yet validating
`{tags: [42]}` against it yields `isValid = true` with no errors — no
per-index violation is emitted for the element `42` failing the String test,
because the element-validation branch requires the processed field's `type`
to itself be an array, which normalization never produces. -/
theorem validate_array_elements_counterexample :
    processDefinition [("tags", .rarrLit (some "String"))]
      = .ok [("tags", .leaf { type := .arrayT, required := false, default := .dnone, validate := none, arrayType := some "String" })] ∧
    validate [("tags", .leaf { type := .arrayT, required := false, default := .dnone, validate := none, arrayType := some "String" })] [("tags", .varr [.vnum 42])]
      = { isValid := true, errors := [] } := by
  refine ⟨rfl, ?_⟩
  simp [validate, validateTop, validateField, objGet, DefaultValidations, JSVal.isArr,
    JSVal.isUndefined, JSVal.isNull, enumErrs, stringConstraintErrs, numberConstraintErrs,
    customValidatorErrs]

/-- C6 amended: a field declared with the `[T]` shorthand records `arrayType`,
but `validate` never consults it: an `Array`-typed specification without enum
or custom validator accepts any array value with no violations regardless of
its elements, and the validation outcome is entirely independent of the
`arrayType` attribute. -/
theorem arrayType_ignored_by_validate (field : String) (elems : List JSVal)
    (parentPath : String) (a b : Option String) (fs : FieldSpec)
    (htype : fs.type = .arrayT) (henum : fs.enum = none) (hval : fs.validate = none) :
    validateField field (.leaf fs) (.varr elems) parentPath = [] ∧
    validateField field (.leaf { fs with arrayType := a }) (.varr elems) parentPath
      = validateField field (.leaf { fs with arrayType := b }) (.varr elems) parentPath := by
  constructor
  · have hpass : DefaultValidations fs.type (.varr elems) = true := by
      rw [htype]; rfl
    rw [@validateField_leaf_checks field fs (.varr elems) parentPath rfl rfl (Or.inr hpass)]
    simp [enumErrs, henum, customValidatorErrs, hval,
      stringConstraintErrs, numberConstraintErrs, htype]
  · simp only [validateField]
    rfl

theorem arrayType_ignored_by_validate_witness :
    ({ type := .arrayT, arrayType := some "String" } : FieldSpec).type = TypeName.arrayT ∧
    validateField "tags" (.leaf { type := .arrayT, arrayType := some "String" }) (.varr [.vnum 42, .vbool false]) "" = [] ∧
    validateField "tags" (.leaf { type := .arrayT, arrayType := some "Number" }) (.varr [.vnum 42, .vbool false]) ""
      = validateField "tags" (.leaf { type := .arrayT, arrayType := some "Boolean" }) (.varr [.vnum 42, .vbool false]) "" := by
  have h := arrayType_ignored_by_validate "tags" [.vnum 42, .vbool false] ""
    (some "Number") (some "Boolean") { type := .arrayT, arrayType := some "String" }
    rfl rfl rfl
  exact ⟨rfl, h.1, h.2⟩

/-- C7 counterexample: the construction error for a null field declaration has
the fixed message "Definition cannot be undefined or null" whichever field is
malformed — identical for fields "X" and "Y" — so it does not identify the
offending field, and it differs from the claimed field-naming message. -/
theorem construction_error_message_counterexample :
    processDefinition [("X", .rnothing)] = .error "Definition cannot be undefined or null" ∧
    processDefinition [("Y", .rnothing)] = .error "Definition cannot be undefined or null" ∧
    "Definition cannot be undefined or null" ≠ "definition cannot be null or absent for field X" :=
  ⟨rfl, rfl, by decide⟩

/-- C7 amended: schema construction fails fast on a malformed declaration — a
null/undefined field declaration, an unknown type tag, a non-callable
`validate`, or a non-boolean `required` each abort processing synchronously
with a descriptive reason message (the whole construction yields the error, so
no usable schema is produced), but the messages state only the reason, not the
offending field's name. -/
theorem construction_fails_fast (field : String) (rest : List (String × RawFieldDecl))
    (tag : String) (htag : parseTypeName tag = none) :
    processDefinition ((field, .rnothing) :: rest)
      = .error "Definition cannot be undefined or null" ∧
    processDefinition ((field, .rbare tag) :: rest) = .error ("Invalid type: " ++ tag) ∧
    processDefinition ((field, .ropts { type := .rtag "String", validate := .rvNonCallable }) :: rest)
      = .error "Validation function must be a function" ∧
    processDefinition ((field, .ropts { type := .rtag "String", required := .rnonbool }) :: rest)
      = .error "Required property must be a boolean" := by
  refine ⟨?_, ?_, ?_, ?_⟩
  · rw [processDefinition]
    simp only [processFieldDecl]
    rfl
  · rw [processDefinition]
    simp only [processFieldDecl, processOpts, htag]
    rfl
  · rw [processDefinition]
    simp only [processFieldDecl, processOpts, parseTypeName]
    rfl
  · rw [processDefinition]
    simp only [processFieldDecl, processOpts, parseTypeName]
    rfl

theorem construction_fails_fast_witness :
    parseTypeName "InvalidType" = none ∧
    processDefinition [("X", .rnothing)] = .error "Definition cannot be undefined or null" ∧
    processDefinition [("X", .rbare "InvalidType")] = .error ("Invalid type: " ++ "InvalidType") ∧
    processDefinition [("X", .ropts { type := .rtag "String", validate := .rvNonCallable })]
      = .error "Validation function must be a function" ∧
    processDefinition [("X", .ropts { type := .rtag "String", required := .rnonbool })]
      = .error "Required property must be a boolean" := by
  have h := construction_fails_fast "X" [] "InvalidType" rfl
  exact ⟨rfl, h.1, h.2.1, h.2.2.1, h.2.2.2⟩

end Mongozen
